import Mathlib

/-!
Verification development for the open-notebook service layer.

Part 1 embeds the Wyoming TCP framing client
(`AudioService._synthesize_via_wyoming` in `api/audio_service.py`):
the response stream is a finite list of bytes (`List Nat`), the JSON
header decoder is an abstract parameter `parse`, and the read loop is
translated line by line from the Python source.

Part 2 embeds the size-bounded LRU image cache
(`ImageCache` in `open_notebook/domain/anki.py` together with
`ImageService` in `api/image_service.py`).
-/

namespace Wyoming

/-- The fields of a decoded response header that the read loop consults:
`hdr.get("type")`, `int(hdr.get("data_length", 0) or 0)` and
`int(hdr.get("payload_length", 0) or 0)`. -/
structure WyHeader where
  tp : Option String
  data_length : Nat
  payload_length : Nat
deriving DecidableEq

/-- The inner `while True: ch = sock.recv(1)` loop of
`_synthesize_via_wyoming`: consume bytes until a newline (byte 10) or
end of stream, returning the bytes before the newline and the rest of
the stream (the newline itself is dropped). -/
def readHeaderLine : List Nat → List Nat × List Nat
  | [] => ([], [])
  | b :: rest =>
    if b = 10 then ([], rest)
    else
      let r := readHeaderLine rest
      (b :: r.1, r.2)

/-- `_read_n(data_len)` after the header: the side-channel data payload is
read and discarded, so only the remaining stream matters.  Mirrors the
`if data_len:` guard in the source. -/
def afterData (hdr : WyHeader) (s : List Nat) : List Nat :=
  if hdr.data_length ≠ 0 then s.drop hdr.data_length else s

/-- The audio payload read by `_read_n(payload_len)` (after the data
payload); empty when the header declares no payload, and truncated when
the stream ends early, exactly as the `recv` loop of `_read_n` behaves. -/
def payloadOf (hdr : WyHeader) (s : List Nat) : List Nat :=
  if hdr.payload_length ≠ 0 then (afterData hdr s).take hdr.payload_length else []

/-- The stream remaining after one frame's data and payload reads. -/
def restOf (hdr : WyHeader) (s : List Nat) : List Nat :=
  if hdr.payload_length ≠ 0 then (afterData hdr s).drop hdr.payload_length
  else afterData hdr s

theorem readHeaderLine_length (s : List Nat) :
    (readHeaderLine s).1.length + (readHeaderLine s).2.length ≤ s.length := by
  induction s with
  | nil => simp [readHeaderLine]
  | cons b rest ih =>
    by_cases hb : b = 10
    · simp [readHeaderLine, hb]
    · simp only [readHeaderLine, if_neg hb, List.length_cons]
      omega

theorem readHeaderLine_snd_lt (s : List Nat) (h : (readHeaderLine s).1 ≠ []) :
    (readHeaderLine s).2.length < s.length := by
  cases s with
  | nil => simp [readHeaderLine] at h
  | cons b rest =>
    have := readHeaderLine_length (b :: rest)
    have hlen : 0 < (readHeaderLine (b :: rest)).1.length :=
      List.length_pos.mpr h
    simp only [List.length_cons] at this ⊢
    omega

theorem restOf_length_le (hdr : WyHeader) (s : List Nat) :
    (restOf hdr s).length ≤ s.length := by
  unfold restOf afterData
  by_cases hp : hdr.payload_length ≠ 0 <;> by_cases hd : hdr.data_length ≠ 0 <;>
    simp [hp, hd, List.length_drop]

/-- The outer `while True:` read loop of `_synthesize_via_wyoming`,
starting from an accumulated buffer `collected` (the `bytearray`):
read a header line; stop if it is empty (peer closed or blank line);
stop if the decoder `parse` rejects it (malformed JSON); otherwise
discard the `data_length` bytes, append the `payload_length` bytes, and
stop after an `audio-stop` frame, else continue on the remaining
stream. -/
def wyReadLoop (parse : List Nat → Option WyHeader) (collected : List Nat)
    (s : List Nat) : List Nat :=
  if h : (readHeaderLine s).1 = [] then collected
  else
    match parse (readHeaderLine s).1 with
    | none => collected
    | some hdr =>
      if hdr.tp = some "audio-stop" then
        collected ++ payloadOf hdr (readHeaderLine s).2
      else
        wyReadLoop parse (collected ++ payloadOf hdr (readHeaderLine s).2)
          (restOf hdr (readHeaderLine s).2)
termination_by s.length
decreasing_by
  exact Nat.lt_of_le_of_lt (restOf_length_le hdr (readHeaderLine s).2)
    (readHeaderLine_snd_lt s h)

/-- `_synthesize_via_wyoming`'s frame-reading phase: run the read loop on
the whole response stream with an initially empty buffer. -/
def synthesizeReadFrames (parse : List Nat → Option WyHeader) (s : List Nat) :
    List Nat :=
  wyReadLoop parse [] s

/-- A response frame as transmitted by the peer: the serialized header
line (without its terminating newline), the side-channel data payload,
and the binary audio payload. -/
structure WyFrame where
  tp : Option String
  headerBytes : List Nat
  dataBytes : List Nat
  payloadBytes : List Nat
deriving DecidableEq

/-- The frame's header is well formed for the decoder `parse`: nonempty,
newline-free, and decoded to a header whose declared lengths match the
actual data and payload lengths. -/
def WellFormed (parse : List Nat → Option WyHeader) (f : WyFrame) : Prop :=
  f.headerBytes ≠ [] ∧ 10 ∉ f.headerBytes ∧
    parse f.headerBytes =
      some ⟨f.tp, f.dataBytes.length, f.payloadBytes.length⟩

/-- On-the-wire encoding of one frame: header line, newline, data
payload, audio payload. -/
def encodeFrame (f : WyFrame) : List Nat :=
  f.headerBytes ++ 10 :: (f.dataBytes ++ f.payloadBytes)

/-- On-the-wire encoding of a frame sequence. -/
def encodeFrames (fs : List WyFrame) : List Nat :=
  (fs.map encodeFrame).flatten

theorem readHeaderLine_append (hb rest : List Nat) (hnl : 10 ∉ hb) :
    readHeaderLine (hb ++ 10 :: rest) = (hb, rest) := by
  induction hb with
  | nil => simp [readHeaderLine]
  | cons b tl ih =>
    have hb10 : b ≠ 10 := fun h => hnl (by simp [h])
    have htl : 10 ∉ tl := fun h => hnl (by simp [h])
    simp [readHeaderLine, hb10, ih htl]

theorem afterData_encode (hdr : WyHeader) (data rest : List Nat)
    (hd : data.length = hdr.data_length) :
    afterData hdr (data ++ rest) = rest := by
  unfold afterData
  by_cases h0 : hdr.data_length ≠ 0
  · simp [h0, ← hd, List.drop_left]
  · have : data = [] := by
      have : data.length = 0 := by omega
      exact List.length_eq_zero.mp this
    simp [h0, this]

theorem payloadOf_encode (hdr : WyHeader) (data payload rest : List Nat)
    (hd : data.length = hdr.data_length)
    (hp : payload.length = hdr.payload_length) :
    payloadOf hdr (data ++ payload ++ rest) = payload := by
  unfold payloadOf
  rw [List.append_assoc, afterData_encode hdr data (payload ++ rest) hd]
  by_cases h0 : hdr.payload_length ≠ 0
  · simp [h0, ← hp, List.take_left]
  · have : payload = [] := by
      have : payload.length = 0 := by omega
      exact List.length_eq_zero.mp this
    simp [h0, this]

theorem restOf_encode (hdr : WyHeader) (data payload rest : List Nat)
    (hd : data.length = hdr.data_length)
    (hp : payload.length = hdr.payload_length) :
    restOf hdr (data ++ payload ++ rest) = rest := by
  unfold restOf
  rw [List.append_assoc, afterData_encode hdr data (payload ++ rest) hd]
  by_cases h0 : hdr.payload_length ≠ 0
  · simp [h0, ← hp, List.drop_left]
  · have : payload = [] := by
      have : payload.length = 0 := by omega
      exact List.length_eq_zero.mp this
    simp [h0, this]

/-- Processing one well-formed frame: the data payload is discarded, the
audio payload is appended, and the loop stops exactly on `audio-stop`. -/
theorem wyReadLoop_step (parse : List Nat → Option WyHeader) (f : WyFrame)
    (hf : WellFormed parse f) (collected rest : List Nat) :
    wyReadLoop parse collected (encodeFrame f ++ rest) =
      if f.tp = some "audio-stop" then collected ++ f.payloadBytes
      else wyReadLoop parse (collected ++ f.payloadBytes) rest := by
  obtain ⟨hne, hnl, hparse⟩ := hf
  have henc : encodeFrame f ++ rest =
      f.headerBytes ++ 10 :: (f.dataBytes ++ f.payloadBytes ++ rest) := by
    simp [encodeFrame]
  have hread : readHeaderLine (encodeFrame f ++ rest) =
      (f.headerBytes, f.dataBytes ++ f.payloadBytes ++ rest) := by
    rw [henc, readHeaderLine_append _ _ hnl]
  rw [wyReadLoop, hread]
  simp only [hne, dite_false, dif_neg hne]
  rw [hparse]
  have hpay := payloadOf_encode ⟨f.tp, f.dataBytes.length, f.payloadBytes.length⟩
    f.dataBytes f.payloadBytes rest rfl rfl
  have hrest := restOf_encode ⟨f.tp, f.dataBytes.length, f.payloadBytes.length⟩
    f.dataBytes f.payloadBytes rest rfl rfl
  simp only [hpay, hrest]

/-- Running the loop over a sequence of well-formed non-stop frames
accumulates exactly their audio payloads and continues on the rest of
the stream. -/
theorem wyReadLoop_run (parse : List Nat → Option WyHeader) (fs : List WyFrame)
    (hwf : ∀ f ∈ fs, WellFormed parse f)
    (hns : ∀ f ∈ fs, f.tp ≠ some "audio-stop") (collected rest : List Nat) :
    wyReadLoop parse collected (encodeFrames fs ++ rest) =
      wyReadLoop parse (collected ++ (fs.map WyFrame.payloadBytes).flatten) rest := by
  induction fs generalizing collected with
  | nil => simp [encodeFrames]
  | cons f tl ih =>
    have henc : encodeFrames (f :: tl) ++ rest =
        encodeFrame f ++ (encodeFrames tl ++ rest) := by
      simp [encodeFrames]
    rw [henc, wyReadLoop_step parse f (hwf f (by simp)) collected
      (encodeFrames tl ++ rest)]
    rw [if_neg (hns f (by simp))]
    rw [ih (fun g hg => hwf g (by simp [hg])) (fun g hg => hns g (by simp [hg]))]
    simp

/-- Reading an empty remaining stream returns the accumulated bytes:
`recv` yields no byte, the header line is empty, and the loop breaks. -/
theorem wyReadLoop_nil (parse : List Nat → Option WyHeader)
    (collected : List Nat) :
    wyReadLoop parse collected [] = collected := by
  rw [wyReadLoop]
  simp [readHeaderLine]

/-- C1: for every response stream that is a sequence of well-formed
frames whose last frame (and only it) has type `audio-stop`, the
synthesize read loop returns exactly the concatenation, in frame order,
of the frames' `payload_length`-sized audio payloads; the `data_length`
side-channel bytes are absent from the result. -/
theorem synthesize_concat_payloads (parse : List Nat → Option WyHeader)
    (gs : List WyFrame) (stopF : WyFrame)
    (hwf : ∀ f ∈ gs ++ [stopF], WellFormed parse f)
    (hns : ∀ f ∈ gs, f.tp ≠ some "audio-stop")
    (hstop : stopF.tp = some "audio-stop") :
    synthesizeReadFrames parse (encodeFrames (gs ++ [stopF])) =
      ((gs ++ [stopF]).map WyFrame.payloadBytes).flatten := by
  unfold synthesizeReadFrames
  have henc : encodeFrames (gs ++ [stopF]) =
      encodeFrames gs ++ (encodeFrame stopF ++ []) := by
    simp [encodeFrames]
  rw [henc, wyReadLoop_run parse gs (fun f hf => hwf f (by simp [hf])) hns []]
  rw [wyReadLoop_step parse stopF (hwf stopF (by simp)) _ []]
  rw [if_pos hstop]
  simp

/-- A concrete header decoder for closed-form instances: byte `[1]`
decodes to an `audio-chunk` header carrying two payload bytes, byte
`[2]` to an `audio-stop` header with one data byte and one payload
byte; everything else is malformed. -/
def demoParse : List Nat → Option WyHeader
  | [1] => some ⟨some "audio-chunk", 0, 2⟩
  | [2] => some ⟨some "audio-stop", 1, 1⟩
  | _ => none

/-- A concrete non-terminal frame matching `demoParse`. -/
def demoChunk : WyFrame :=
  ⟨some "audio-chunk", [1], [], [7, 8]⟩

/-- A concrete terminal frame matching `demoParse`, carrying one
side-channel data byte (5) and one audio byte (9). -/
def demoStop : WyFrame :=
  ⟨some "audio-stop", [2], [5], [9]⟩

/-- C1 witness: a chunk frame followed by an audio-stop frame yields the
concatenated payloads `[7, 8, 9]`; the data byte 5 is absent. -/
theorem synthesize_concat_payloads_witness :
    synthesizeReadFrames demoParse (encodeFrames ([demoChunk] ++ [demoStop])) =
      (([demoChunk] ++ [demoStop]).map WyFrame.payloadBytes).flatten :=
  synthesize_concat_payloads demoParse [demoChunk] demoStop
    (by
      intro f hf
      simp only [List.mem_append, List.mem_singleton] at hf
      rcases hf with h | h <;> subst h <;>
        exact ⟨by simp [demoChunk, demoStop], by simp [demoChunk, demoStop], rfl⟩)
    (by intro f hf; simp only [List.mem_singleton] at hf; subst hf; simp [demoChunk])
    rfl

/-- C7: when the peer closes the connection while a header line is
expected — in particular immediately, with zero bytes sent — the loop
returns the bytes accumulated so far instead of failing: the encoded
prefix of well-formed non-stop frames yields exactly its payloads. -/
theorem synthesize_peer_close (parse : List Nat → Option WyHeader)
    (gs : List WyFrame) (hwf : ∀ f ∈ gs, WellFormed parse f)
    (hns : ∀ f ∈ gs, f.tp ≠ some "audio-stop") :
    synthesizeReadFrames parse (encodeFrames gs) =
      (gs.map WyFrame.payloadBytes).flatten := by
  unfold synthesizeReadFrames
  have henc : encodeFrames gs = encodeFrames gs ++ [] := by simp
  rw [henc, wyReadLoop_run parse gs hwf hns [] [], wyReadLoop_nil]
  simp

/-- C7 witness: the peer sends zero bytes; the result is the empty byte
sequence. -/
theorem synthesize_peer_close_witness :
    synthesizeReadFrames (fun _ => none) (encodeFrames []) = [] :=
  synthesize_peer_close (fun _ => none) [] (by simp) (by simp)

/-- C8: if a header line fails to decode as JSON (`parse` returns
`none`), the loop stops and returns the bytes accumulated before that
point, rather than failing. -/
theorem synthesize_malformed_header (parse : List Nat → Option WyHeader)
    (gs : List WyFrame) (hwf : ∀ f ∈ gs, WellFormed parse f)
    (hns : ∀ f ∈ gs, f.tp ≠ some "audio-stop")
    (bad rest : List Nat) (hbne : bad ≠ []) (hbnl : 10 ∉ bad)
    (hbad : parse bad = none) :
    synthesizeReadFrames parse (encodeFrames gs ++ (bad ++ 10 :: rest)) =
      (gs.map WyFrame.payloadBytes).flatten := by
  unfold synthesizeReadFrames
  rw [wyReadLoop_run parse gs hwf hns [] (bad ++ 10 :: rest)]
  rw [wyReadLoop, readHeaderLine_append bad rest hbnl]
  simp [hbne, hbad]

/-- C8 witness: a stream consisting of a single malformed header line
yields the empty byte sequence without failing. -/
theorem synthesize_malformed_header_witness :
    synthesizeReadFrames (fun _ => none) (encodeFrames [] ++ ([123] ++ 10 :: [])) =
      [] :=
  synthesize_malformed_header (fun _ => none) [] (by simp) (by simp)
    [123] [] (by simp) (by simp) rfl

/-- The complete outcome of processing one received header line in
`_synthesize_via_wyoming`, covering all three paths of the source:
`malformed` — `json.loads` raises, which the `try/except` at the header
parse catches and turns into break-and-return; `headerError` — the line
is valid JSON but `hdr.get("type")` (non-object header) or
`int(hdr.get("data_length", 0) or 0)` /
`int(hdr.get("payload_length", 0) or 0)` (non-numeric length) raises
outside any `try`, so the exception propagates out of the loop;
`ok` — processing succeeds and yields the header fields. -/
inductive HeaderOutcome where
  | malformed : HeaderOutcome
  | headerError : HeaderOutcome
  | ok (hdr : WyHeader) : HeaderOutcome
deriving DecidableEq

/-- The outer `while True:` read loop with the header-processing error
path represented: `Except.error ()` is the uncaught exception escaping
`_synthesize_via_wyoming` (no bytes value is returned), `Except.ok` is
the bytes value the loop returns.  Within one iteration the uncaught
raise may fire at any of the three conversion sites; in every case it
propagates before the next header line, so one `headerError` outcome
per line is observationally faithful. -/
def wyReadLoopE (parse : List Nat → HeaderOutcome) (collected : List Nat)
    (s : List Nat) : Except Unit (List Nat) :=
  if h : (readHeaderLine s).1 = [] then Except.ok collected
  else
    match parse (readHeaderLine s).1 with
    | HeaderOutcome.malformed => Except.ok collected
    | HeaderOutcome.headerError => Except.error ()
    | HeaderOutcome.ok hdr =>
      if hdr.tp = some "audio-stop" then
        Except.ok (collected ++ payloadOf hdr (readHeaderLine s).2)
      else
        wyReadLoopE parse (collected ++ payloadOf hdr (readHeaderLine s).2)
          (restOf hdr (readHeaderLine s).2)
termination_by s.length
decreasing_by
  exact Nat.lt_of_le_of_lt (restOf_length_le hdr (readHeaderLine s).2)
    (readHeaderLine_snd_lt s h)

/-- The same loop as a step-counted process: the direct transcription of
the unbounded `while True:` loop, returning `none` when the allotted
number of iterations is exhausted before the loop exits or raises.
Used to state termination of the loop explicitly. -/
def wyReadLoopFuelE (parse : List Nat → HeaderOutcome) :
    Nat → List Nat → List Nat → Option (Except Unit (List Nat))
  | 0, _, _ => none
  | Nat.succ fuel, collected, s =>
    if (readHeaderLine s).1 = [] then some (Except.ok collected)
    else
      match parse (readHeaderLine s).1 with
      | HeaderOutcome.malformed => some (Except.ok collected)
      | HeaderOutcome.headerError => some (Except.error ())
      | HeaderOutcome.ok hdr =>
        if hdr.tp = some "audio-stop" then
          some (Except.ok (collected ++ payloadOf hdr (readHeaderLine s).2))
        else
          wyReadLoopFuelE parse fuel
            (collected ++ payloadOf hdr (readHeaderLine s).2)
            (restOf hdr (readHeaderLine s).2)

/-- Header processing for the line `42` (bytes 52, 50): `json.loads`
accepts it as the JSON number 42, and then `hdr.get("type")` on an
integer raises `AttributeError` outside any `try`; every other line is
malformed JSON. -/
def nonObjectHeader : List Nat → HeaderOutcome
  | [52, 50] => HeaderOutcome.headerError
  | _ => HeaderOutcome.malformed

/-- C10 counterexample: on the stream consisting of the header line
`42` followed by its newline — a finite stream delivered without any
receive raising — the frame-reading loop does not return a bytes value:
the uncaught exception from `hdr.get` on the valid-JSON non-object
header escapes the loop. -/
theorem wyReadLoop_raises_on_nonobject_header :
    wyReadLoopE nonObjectHeader [] [52, 50, 10] = Except.error () := by
  rw [wyReadLoopE]
  rfl

/-- C10 amended: for every finite byte stream delivered by the peer —
including streams that end mid-header, mid-data-payload, or
mid-audio-payload, and streams whose declared lengths exceed the
remaining bytes — the frame-reading loop terminates, yielding either a
bytes value or the uncaught exception from header processing
(valid-JSON non-object header or non-numeric length field), provided
each underlying receive returns some bytes or signals end-of-stream
without raising: every iteration consumes at least one stream byte, so
any iteration allowance exceeding the stream length makes the
step-counted loop exit with the loop's outcome. -/
theorem wyReadLoop_terminates_outcome (parse : List Nat → HeaderOutcome)
    (fuel : Nat) :
    ∀ s collected : List Nat, s.length < fuel →
      wyReadLoopFuelE parse fuel collected s =
        some (wyReadLoopE parse collected s) := by
  induction fuel with
  | zero => intro s collected h; omega
  | succ fuel ih =>
    intro s collected h
    rw [wyReadLoopFuelE, wyReadLoopE]
    by_cases hb : (readHeaderLine s).1 = []
    · simp [hb]
    · simp only [if_neg hb, dif_neg hb]
      cases hp : parse (readHeaderLine s).1 with
      | malformed => rfl
      | headerError => rfl
      | ok hdr =>
        by_cases hstop : hdr.tp = some "audio-stop"
        · simp [hstop]
        · simp only [if_neg hstop]
          apply ih
          have h1 : (readHeaderLine s).2.length < s.length :=
            readHeaderLine_snd_lt s hb
          have h2 := restOf_length_le hdr (readHeaderLine s).2
          omega

/-- C10 amended witness: with an allowance exceeding the stream length
the loop completes on the counterexample stream itself, its outcome the
propagated header error. -/
theorem wyReadLoop_terminates_outcome_witness :
    wyReadLoopFuelE nonObjectHeader 4 [] [52, 50, 10] =
      some (wyReadLoopE nonObjectHeader [] [52, 50, 10]) :=
  wyReadLoop_terminates_outcome nonObjectHeader 4 [52, 50, 10] [] (by decide)

/-- The connection phase of `_synthesize_via_wyoming`:
`sock = _try_connect(host, port); if sock is None and port != 10200:
sock = _try_connect(host, 10200); if sock is None: raise`.
`connectOk p` tells whether `_try_connect` succeeds on port `p`; the
result is the port connected on (`none` models the raised
`RuntimeError`) paired with the ordered list of ports attempted. -/
def wyConnect (connectOk : Nat → Bool) (port : Nat) :
    Option Nat × List Nat :=
  if connectOk port then (some port, [port])
  else if port ≠ 10200 then
    (if connectOk 10200 then some 10200 else none, [port, 10200])
  else (none, [port])

/-- C9 counterexample: with the endpoint configured on port 10200 and
every connection attempt failing, exactly one attempt is made — there is
no retry against the fallback port before the hard failure is raised,
contradicting the claim that every failed first attempt is retried once
against port 10200. -/
theorem wyConnect_no_retry_on_10200 :
    (wyConnect (fun _ => false) 10200).2 = [10200] ∧
      (wyConnect (fun _ => false) 10200).2.length ≠ 2 ∧
      (wyConnect (fun _ => false) 10200).1 = none := by
  decide

/-- C9 amended: the first attempt targets the configured port; when it
fails and that port differs from 10200, exactly one retry against the
fallback port 10200 follows, and a hard failure is surfaced only if the
retry also fails; when the configured port is already 10200, the failure
is surfaced immediately after the single attempt, with no retry. -/
theorem wyConnect_retry_policy (connectOk : Nat → Bool) (port : Nat) :
    (connectOk port = true → wyConnect connectOk port = (some port, [port])) ∧
    (connectOk port = false → port ≠ 10200 →
      wyConnect connectOk port =
        (if connectOk 10200 then some 10200 else none, [port, 10200])) ∧
    (connectOk port = false → port = 10200 →
      wyConnect connectOk port = (none, [port])) := by
  refine ⟨fun h => ?_, fun h hne => ?_, fun h he => ?_⟩
  · simp [wyConnect, h]
  · simp [wyConnect, h, hne]
  · subst he
    simp [wyConnect, h]

/-- C9 amended witness: configured port 9999 with a peer listening only
on 10200 — the first attempt fails, the single retry against 10200
succeeds. -/
theorem wyConnect_retry_policy_witness :
    wyConnect (fun p => p = 10200) 9999 =
      (if (fun p : Nat => decide (p = 10200)) 10200 then some 10200 else none,
        [9999, 10200]) :=
  (wyConnect_retry_policy (fun p => p = 10200) 9999).2.1 (by decide) (by decide)

end Wyoming

namespace ImageCacheModel

/-- A row of the `image_cache` table (`ImageCache` in
`open_notebook/domain/anki.py`): url, cached file path, source label,
attribution text, file size in bytes, access count, and the two
timestamps (modelled as naturals). -/
structure CacheEntry where
  url : String
  cached_path : String
  source : String
  attribution : String
  file_size : Nat
  access_count : Nat
  last_accessed : Nat
  expires_at : Nat
deriving DecidableEq

/-- Modelled from the spec: the persistence layer
(`open_notebook.database.repository.repo_query` and
`ObjectModel.save`/`delete`) is not under `src/`; per the spec the core
cache logic treats storage as an opaque collaborator holding the entry
records, here a list of rows. -/
abbrev Store := List CacheEntry

/-- `ImageCache.get_total_cache_size`: the
`SELECT math::sum(file_size) ... GROUP ALL` query — the sum of
`file_size` over all live rows. -/
def totalCacheSize (store : Store) : Nat :=
  (store.map CacheEntry.file_size).sum

/-- Modelled from the spec: insertion step of the `ORDER BY
last_accessed ASC` query result (the ordering the missing database
layer applies); ties are broken deterministically but arbitrarily. -/
def insertLru (e : CacheEntry) : Store → Store
  | [] => [e]
  | x :: xs =>
    if e.last_accessed ≤ x.last_accessed then e :: x :: xs
    else x :: insertLru e xs

/-- Modelled from the spec: the rows of
`SELECT * FROM image_cache ORDER BY last_accessed ASC` — the store
sorted by `last_accessed` ascending. -/
def orderByLastAccessed : Store → Store
  | [] => []
  | x :: xs => insertLru x (orderByLastAccessed xs)

/-- The eviction loop of `ImageCache.cleanup_lru`: walk the rows oldest
first, stop as soon as `freed_bytes >= bytes_to_free`, otherwise delete
the row and add its `file_size` to `freed_bytes`.  Returns the deleted
rows (in eviction order) and the surviving rows. -/
def lruEvict (bytesToFree : Nat) (freed : Nat) : Store → Store × Store
  | [] => ([], [])
  | e :: rest =>
    if bytesToFree ≤ freed then ([], e :: rest)
    else
      let r := lruEvict bytesToFree (freed + e.file_size) rest
      (e :: r.1, r.2)

/-- `ImageCache.cleanup_lru(max_size_bytes)`: if the total size is over
the ceiling, evict least-recently-accessed rows until the shortfall is
freed.  Returns the surviving store. -/
def cleanup_lru (max_size_bytes : Nat) (store : Store) : Store :=
  let total := totalCacheSize store
  if total ≤ max_size_bytes then store
  else (lruEvict (total - max_size_bytes) 0 (orderByLastAccessed store)).2

/-- The rows `ImageCache.cleanup_lru(max_size_bytes)` evicts, in
eviction order. -/
def cleanup_lru_evicted (max_size_bytes : Nat) (store : Store) : Store :=
  let total := totalCacheSize store
  if total ≤ max_size_bytes then []
  else (lruEvict (total - max_size_bytes) 0 (orderByLastAccessed store)).1

/-- The cache's full observable state: the entry records in the store
and the backing files on disk (by path). -/
structure CacheFS where
  store : Store
  files : List String
deriving DecidableEq

/-- `ImageCache.cleanup_lru` acting on the full state: the loop body
performs only `await entry.delete()` — a record deletion — so the
backing files on disk are not touched. -/
def cleanup_lru_fs (max_size_bytes : Nat) (st : CacheFS) : CacheFS :=
  { store := cleanup_lru max_size_bytes st.store, files := st.files }

/-- `ImageCache.get_expired_entries`: the
`SELECT * FROM image_cache WHERE expires_at < $now` query — all rows
strictly expired at the reference time. -/
def get_expired_entries (now : Nat) (store : Store) : Store :=
  store.filter (fun e => decide (e.expires_at < now))

/-- Modelled from the spec: `ObjectModel.delete` (not under `src/`)
removes the entry's record from the opaque store; here, the first
matching row. -/
def eraseEntry (e : CacheEntry) : Store → Store
  | [] => []
  | x :: xs => if x = e then xs else x :: eraseEntry e xs

/-- The best-effort file deletion of
`ImageService.cleanup_expired_cache`: `if path.exists(): path.unlink()`
inside a `try`, with a failed unlink (modelled by `unlinkOk path =
false`) logged and swallowed, leaving the file in place. -/
def deleteFileBestEffort (unlinkOk : String → Bool) (files : List String)
    (path : String) : List String :=
  if files.contains path && unlinkOk path then files.erase path else files

/-- `ImageService.cleanup_expired_cache`: for each expired row, delete
the backing file best-effort, then delete the row record
unconditionally. -/
def cleanup_expired_cache (unlinkOk : String → Bool) (now : Nat)
    (st : CacheFS) : CacheFS :=
  (get_expired_entries now st.store).foldl
    (fun acc e =>
      { store := eraseEntry e acc.store,
        files := deleteFileBestEffort unlinkOk acc.files e.cached_path })
    st

/-- `ImageCache.get_by_url`'s row lookup: the
`SELECT * FROM image_cache WHERE url = $url LIMIT 1` query — the first
row with the given url, if any. -/
def findByUrl (url : String) (store : Store) : Option CacheEntry :=
  store.find? (fun e => e.url = url)

/-- The access-tracking update of `ImageCache.get_by_url`:
`access_count += 1` and `last_accessed = datetime.utcnow()`. -/
def touchEntry (now : Nat) (e : CacheEntry) : CacheEntry :=
  { e with access_count := e.access_count + 1, last_accessed := now }

/-- Modelled from the spec: `ObjectModel.save` (not under `src/`)
upserts the fetched record in the opaque store; here, the first row
equal to the fetched one is replaced by the updated one. -/
def saveReplace (old new : CacheEntry) : Store → Store
  | [] => []
  | x :: xs => if x = old then new :: xs else x :: saveReplace old new xs

/-- `ImageCache.get_by_url(url)` at time `now`: on a hit — expired or
not — bump the access tracking, save, and return the updated entry;
on a miss return nothing. -/
def get_by_url (url : String) (now : Nat) (store : Store) :
    Option CacheEntry × Store :=
  match findByUrl url store with
  | none => (none, store)
  | some e => (some (touchEntry now e), saveReplace e (touchEntry now e) store)

theorem totalCacheSize_insertLru (e : CacheEntry) (l : Store) :
    totalCacheSize (insertLru e l) = e.file_size + totalCacheSize l := by
  induction l with
  | nil => simp [insertLru, totalCacheSize]
  | cons x xs ih =>
    by_cases hle : e.last_accessed ≤ x.last_accessed
    · simp [insertLru, hle, totalCacheSize]
    · simp only [insertLru, if_neg hle, totalCacheSize, List.map_cons,
        List.sum_cons] at ih ⊢
      omega

theorem totalCacheSize_orderBy (store : Store) :
    totalCacheSize (orderByLastAccessed store) = totalCacheSize store := by
  induction store with
  | nil => rfl
  | cons x xs ih =>
    show totalCacheSize (insertLru x (orderByLastAccessed xs)) = _
    rw [totalCacheSize_insertLru, ih]
    simp [totalCacheSize]

theorem lruEvict_append (n f : Nat) (l : Store) :
    (lruEvict n f l).1 ++ (lruEvict n f l).2 = l := by
  induction l generalizing f with
  | nil => simp [lruEvict]
  | cons e rest ih =>
    by_cases hf : n ≤ f
    · simp [lruEvict, hf]
    · simp [lruEvict, hf, ih]

theorem lruEvict_freed (n f : Nat) (l : Store) :
    (lruEvict n f l).2 = [] ∨ n ≤ f + totalCacheSize (lruEvict n f l).1 := by
  induction l generalizing f with
  | nil => exact Or.inl rfl
  | cons e rest ih =>
    by_cases hf : n ≤ f
    · right
      simp [lruEvict, hf, totalCacheSize]
    · rcases ih (f + e.file_size) with h | h
      · left
        simp [lruEvict, hf, h]
      · right
        simp only [lruEvict, if_neg hf, totalCacheSize, List.map_cons,
          List.sum_cons]
        simp only [totalCacheSize] at h
        omega

theorem totalCacheSize_append (a b : Store) :
    totalCacheSize (a ++ b) = totalCacheSize a + totalCacheSize b := by
  simp [totalCacheSize]

/-- C2: after any call to `ImageCache.cleanup_lru(max_size_bytes)`, the
sum of `file_size` over the rows still live in the cache is at most
`max_size_bytes`. -/
theorem cleanup_lru_capacity (max_size_bytes : Nat) (store : Store) :
    totalCacheSize (cleanup_lru max_size_bytes store) ≤ max_size_bytes := by
  unfold cleanup_lru
  by_cases hle : totalCacheSize store ≤ max_size_bytes
  · simp [hle]
  · simp only [if_neg hle]
    set n := totalCacheSize store - max_size_bytes with hn
    have hsort : totalCacheSize (orderByLastAccessed store) =
        totalCacheSize store := totalCacheSize_orderBy store
    have hsplit := lruEvict_append n 0 (orderByLastAccessed store)
    have hsum : totalCacheSize (lruEvict n 0 (orderByLastAccessed store)).1 +
        totalCacheSize (lruEvict n 0 (orderByLastAccessed store)).2 =
        totalCacheSize store := by
      rw [← totalCacheSize_append, hsplit, hsort]
    rcases lruEvict_freed n 0 (orderByLastAccessed store) with h | h
    · simp [h, totalCacheSize]
    · simp only [Nat.zero_add] at h
      omega

/-- A 600-byte entry whose backing file is `img.jpg`; with a 500-byte
ceiling it must be evicted. -/
def orphanEntry : CacheEntry :=
  ⟨"q", "img.jpg", "pexels", "P", 600, 0, 1000, 2000⟩

/-- C3 evaluation at the failing input: capacity eviction by
`ImageCache.cleanup_lru` removes the entry record but leaves the backing
file on disk — the loop body only calls `entry.delete()`, never a file
deletion, so `img.jpg` is orphaned. -/
theorem cleanup_lru_record_only :
    (cleanup_lru_fs 500 ⟨[orphanEntry], ["img.jpg"]⟩).store = [] ∧
      (cleanup_lru_fs 500 ⟨[orphanEntry], ["img.jpg"]⟩).files = ["img.jpg"] := by
  decide

theorem mem_insertLru (a e : CacheEntry) (l : Store) :
    a ∈ insertLru e l ↔ a = e ∨ a ∈ l := by
  induction l with
  | nil => simp [insertLru]
  | cons x xs ih =>
    by_cases hle : e.last_accessed ≤ x.last_accessed
    · simp [insertLru, hle]
    · simp [insertLru, hle, ih]
      tauto

theorem pairwise_le_insertLru (e : CacheEntry) (l : Store)
    (hl : l.Pairwise (fun a b => a.last_accessed ≤ b.last_accessed)) :
    (insertLru e l).Pairwise (fun a b => a.last_accessed ≤ b.last_accessed) := by
  induction l with
  | nil => simp [insertLru]
  | cons x xs ih =>
    rcases List.pairwise_cons.mp hl with ⟨hx, hxs⟩
    by_cases hle : e.last_accessed ≤ x.last_accessed
    · rw [insertLru, if_pos hle]
      refine List.pairwise_cons.mpr ⟨?_, hl⟩
      intro b hb
      rcases List.mem_cons.mp hb with h | h
      · subst h
        exact hle
      · exact hle.trans (hx b h)
    · rw [insertLru, if_neg hle]
      refine List.pairwise_cons.mpr ⟨?_, ih hxs⟩
      intro b hb
      rcases (mem_insertLru b e xs).mp hb with h | h
      · subst h
        omega
      · exact hx b h

theorem pairwise_le_orderBy (store : Store) :
    (orderByLastAccessed store).Pairwise
      (fun a b => a.last_accessed ≤ b.last_accessed) := by
  induction store with
  | nil => simp [orderByLastAccessed]
  | cons x xs ih => exact pairwise_le_insertLru x _ ih

theorem perm_insertLru (e : CacheEntry) (l : Store) :
    (insertLru e l).Perm (e :: l) := by
  induction l with
  | nil => simp [insertLru]
  | cons x xs ih =>
    by_cases hle : e.last_accessed ≤ x.last_accessed
    · simp [insertLru, hle]
    · rw [insertLru, if_neg hle]
      exact (ih.cons x).trans (List.Perm.swap e x xs)

theorem perm_orderBy (store : Store) :
    (orderByLastAccessed store).Perm store := by
  induction store with
  | nil => simp [orderByLastAccessed]
  | cons x xs ih => exact (perm_insertLru x _).trans (ih.cons x)

/-- Entry A of the eviction-order scenario: last accessed at 1000
(10:00). -/
def entryA : CacheEntry := ⟨"a", "a.jpg", "unsplash", "A", 100, 0, 1000, 2000⟩

/-- Entry B of the eviction-order scenario: last accessed at 1005
(10:05). -/
def entryB : CacheEntry := ⟨"b", "b.jpg", "unsplash", "B", 100, 0, 1005, 2000⟩

/-- Entry C of the eviction-order scenario: last accessed at 1002
(10:02). -/
def entryC : CacheEntry := ⟨"c", "c.jpg", "unsplash", "C", 100, 0, 1002, 2000⟩

theorem cleanup_lru_evicted_take (max_size_bytes : Nat) (store : Store) :
    ∃ k, cleanup_lru_evicted max_size_bytes store =
      (orderByLastAccessed store).take k := by
  unfold cleanup_lru_evicted
  by_cases hle : totalCacheSize store ≤ max_size_bytes
  · exact ⟨0, by simp [hle]⟩
  · obtain ⟨ev, rem, hev, hrem⟩ :
        ∃ ev rem, (lruEvict (totalCacheSize store - max_size_bytes) 0
            (orderByLastAccessed store)).1 = ev ∧
          (lruEvict (totalCacheSize store - max_size_bytes) 0
            (orderByLastAccessed store)).2 = rem := ⟨_, _, rfl, rfl⟩
    have hdec : ev ++ rem = orderByLastAccessed store := by
      rw [← hev, ← hrem]
      exact lruEvict_append _ _ _
    refine ⟨ev.length, ?_⟩
    simp only [if_neg hle, hev]
    rw [← hdec, List.take_left]

/-- C4: capacity eviction removes entries in ascending `last_accessed`
order from the front of the `ORDER BY last_accessed ASC` listing —
strictly ascending when the access times are pairwise distinct — and on
a cache holding exactly A (accessed at 1000), B (1005), C (1002) with a
ceiling forcing one eviction, the evicted entry is A. -/
theorem cleanup_lru_eviction_order :
    (∀ max_size_bytes store, ∃ k,
        cleanup_lru_evicted max_size_bytes store =
          (orderByLastAccessed store).take k) ∧
    (∀ max_size_bytes : Nat, ∀ store : Store,
        store.Pairwise (fun a b => a.last_accessed ≠ b.last_accessed) →
        (cleanup_lru_evicted max_size_bytes store).Pairwise
          (fun a b => a.last_accessed < b.last_accessed)) ∧
    cleanup_lru_evicted 250 [entryA, entryB, entryC] = [entryA] := by
  refine ⟨cleanup_lru_evicted_take, ?_, by decide⟩
  intro max_size_bytes store hne
  obtain ⟨k, hk⟩ := cleanup_lru_evicted_take max_size_bytes store
  have hsub : (cleanup_lru_evicted max_size_bytes store).Sublist
      (orderByLastAccessed store) := by
    rw [hk]
    exact List.take_sublist k _
  have hle := List.Pairwise.sublist hsub (pairwise_le_orderBy store)
  have hne' : (orderByLastAccessed store).Pairwise
      (fun a b => a.last_accessed ≠ b.last_accessed) :=
    (List.Perm.pairwise_iff (fun h => Ne.symm h) (perm_orderBy store)).mpr hne
  have hne2 := List.Pairwise.sublist hsub hne'
  exact (hle.and hne2).imp fun h => Nat.lt_of_le_of_ne h.1 h.2

/-- C4 witness: on the concrete A/B/C cache the evicted sequence is in
strictly ascending `last_accessed` order. -/
theorem cleanup_lru_eviction_order_witness :
    (cleanup_lru_evicted 250 [entryA, entryB, entryC]).Pairwise
      (fun a b => a.last_accessed < b.last_accessed) :=
  cleanup_lru_eviction_order.2.1 250 [entryA, entryB, entryC] (by decide)

theorem foldl_eraseEntry_cons (es : Store) (x : CacheEntry) (s : Store)
    (hx : ∀ e ∈ es, e ≠ x) :
    es.foldl (fun acc e => eraseEntry e acc) (x :: s) =
      x :: es.foldl (fun acc e => eraseEntry e acc) s := by
  induction es generalizing s with
  | nil => rfl
  | cons e tl ih =>
    have hex : x ≠ e := fun h => hx e (by simp) h.symm
    simp only [List.foldl_cons, eraseEntry, if_neg hex]
    exact ih (eraseEntry e s) fun g hg => hx g (by simp [hg])

theorem foldl_eraseEntry_filter (p : CacheEntry → Bool) (l : Store) :
    (l.filter p).foldl (fun acc e => eraseEntry e acc) l =
      l.filter (fun e => !(p e)) := by
  induction l with
  | nil => rfl
  | cons x tl ih =>
    by_cases hp : p x = true
    · simp only [List.filter_cons, hp, if_pos, List.foldl_cons, eraseEntry,
        if_pos rfl, Bool.not_true]
      rw [ih]
      simp [hp]
    · have hp' : p x = false := by
        revert hp
        cases p x <;> simp
      have hmem : ∀ e ∈ tl.filter p, e ≠ x := by
        intro e he hex
        subst hex
        have := List.of_mem_filter he
        rw [hp'] at this
        exact Bool.noConfusion this
      simp only [List.filter_cons, hp', Bool.false_eq_true, Bool.not_false,
        if_true, if_false]
      rw [foldl_eraseEntry_cons _ _ _ hmem, ih]

theorem cleanup_expired_store_proj (unlinkOk : String → Bool) (es : Store)
    (st : CacheFS) :
    (es.foldl (fun acc e =>
        ({ store := eraseEntry e acc.store,
           files := deleteFileBestEffort unlinkOk acc.files e.cached_path }
          : CacheFS)) st).store =
      es.foldl (fun acc e => eraseEntry e acc) st.store := by
  induction es generalizing st with
  | nil => rfl
  | cons e tl ih => exact ih _

/-- C5: a sweep (`get_expired_entries` followed by the deletion loop of
`ImageService.cleanup_expired_cache` at reference time `now`) removes
from the store the records of all and only the rows whose `expires_at`
is strictly before `now` — rows expiring at or after `now` survive
untouched — and this holds for every backing-file deletion outcome, so
an expired row's record is removed even when deleting its file fails. -/
theorem cleanup_expired_removes_all_only (unlinkOk : String → Bool)
    (now : Nat) (st : CacheFS) :
    (cleanup_expired_cache unlinkOk now st).store =
      st.store.filter (fun e => decide (now ≤ e.expires_at)) := by
  unfold cleanup_expired_cache get_expired_entries
  rw [cleanup_expired_store_proj, foldl_eraseEntry_filter]
  apply List.filter_congr
  intro e _
  by_cases h : e.expires_at < now
  · simp [h, not_le.mpr h]
  · simp [h, Nat.not_lt.mp h]

/-- The found row the C6 witness exercises: a stale entry (its
`expires_at` of 50 is already past at call time 100). -/
def staleEntry : CacheEntry := ⟨"k", "k.jpg", "pixabay", "K", 10, 3, 40, 50⟩

/-- C6: when the url is present in the cache — the lookup query finds a
row `e0`, stale or not — `get_by_url` at time `now` returns that row
with `access_count` incremented by one and `last_accessed` set to `now`,
which is at least the time `t0` just before the call; the url and
`expires_at` are unchanged. -/
theorem get_by_url_touches (url : String) (now t0 : Nat) (store : Store)
    (e0 : CacheEntry) (hfind : findByUrl url store = some e0)
    (ht : t0 ≤ now) :
    ∃ r, (get_by_url url now store).1 = some r ∧
      r.access_count = e0.access_count + 1 ∧
      r.last_accessed = now ∧ t0 ≤ r.last_accessed ∧
      r.url = e0.url ∧ r.expires_at = e0.expires_at := by
  refine ⟨touchEntry now e0, ?_, rfl, rfl, ht, rfl, rfl⟩
  unfold get_by_url
  rw [hfind]

/-- C6 witness: the single cached row is stale at call time 100 yet is
still returned, with its access count bumped from 3 to 4 and its
`last_accessed` at least the pre-call time 90. -/
theorem get_by_url_touches_witness :
    staleEntry.expires_at < 100 ∧
      ∃ r, (get_by_url "k" 100 [staleEntry]).1 = some r ∧
        r.access_count = staleEntry.access_count + 1 ∧
        r.last_accessed = 100 ∧ 90 ≤ r.last_accessed ∧
        r.url = staleEntry.url ∧ r.expires_at = staleEntry.expires_at :=
  ⟨by decide,
    get_by_url_touches "k" 100 90 [staleEntry] staleEntry (by decide)
      (by decide)⟩

end ImageCacheModel
